import Mathlib

/-!
Verification of the notebook `T4-expansion.ipynb` (higher-order nested
expansion of a loss function with singular Hessian).

The development shallowly embeds the computational content of the notebook:

* the eigenvalue-threshold direction selection
  (`index = np.argmax(w < 1e-6)`, `direction_vectors`),
* numpy column indexing with Python negative-index semantics,
* Python negative indexing into the `trainable_variables` list,
* the forward passes of the trained model and of the reparametrized model
  `model_c` with its `CustomLayer`,
* the weight-assignment loop that copies `x_star` into `model_c`,
* the nested `GradientTape` computations `T2_compute` / `T4_compute`,
  modelled by iterated directional derivatives of a real-valued loss,
* the tensor contractions producing the Taylor coefficients
  `coeff_T2`, `coeff_T3`, `coeff_T4`.

Tensors are embedded as functions out of `Fin`-types, machine floats as
elements of an abstract linearly ordered field (instantiated at `ℚ` for
concrete evaluations) or as real numbers where derivatives are involved.
-/

namespace T4Expansion

/-! ## Eigenvalue / direction selection (notebook cell `99d6b606`) -/

/-- First index of a `true` entry of a Boolean list, if any.  `np.argmax`
on a Boolean mask returns the index of the first maximal element, i.e. the
first `true` entry when one exists and `0` for an all-`false` mask. -/
def firstTrue : List Bool → Option ℕ
  | [] => none
  | b :: rest => if b then some 0 else (firstTrue rest).map (· + 1)

/-- `np.argmax` on a Boolean mask: first `true` index, `0` if none. -/
def npArgmaxMask (mask : List Bool) : ℕ :=
  (firstTrue mask).getD 0

/-- The Boolean mask `w < thr` computed entrywise on the eigenvalue
array `w`; in the notebook `thr` is the fixed literal `1e-6`. -/
def belowMask {α : Type} [LinearOrder α] {N : ℕ} (w : Fin N → α) (thr : α) :
    List Bool :=
  List.ofFn (fun i => decide (w i < thr))

/-- `index = np.argmax(w < 1e-6)`: the position of the first eigenvalue
below the threshold (`0` when every eigenvalue is at least the threshold). -/
def index {α : Type} [LinearOrder α] {N : ℕ} (w : Fin N → α) (thr : α) : ℕ :=
  npArgmaxMask (belowMask w thr)

/-- Python/numpy integer indexing into an axis of length `N`:
`0 ≤ i < N` selects position `i`, `-N ≤ i < 0` wraps to `N + i`, and any
other value is an `IndexError`, modelled as `none`. -/
def npIdx (N : ℕ) (i : ℤ) : Option (Fin N) :=
  if h : 0 ≤ i ∧ i < N then some ⟨i.toNat, by omega⟩
  else if h2 : -(N : ℤ) ≤ i ∧ i < 0 then some ⟨(i + N).toNat, by omega⟩
  else none

/-- `v[:, i]`: column `i` (a Python integer) of the eigenvector matrix,
`none` when numpy would raise an `IndexError`. -/
def npCol {α : Type} {N : ℕ} (v : Fin N → Fin N → α) (i : ℤ) :
    Option (Fin N → α) :=
  (npIdx N i).map (fun j r => v r j)

/-- `direction_vectors = tf.stack([v[:,index-1], v[:,index+1]])`, the pair of
selected eigenvector columns; a component is `none` when the column read
raises an `IndexError`. -/
def direction_vectors {α : Type} [LinearOrder α] {N : ℕ}
    (w : Fin N → α) (v : Fin N → Fin N → α) (thr : α) :
    Option (Fin N → α) × Option (Fin N → α) :=
  (npCol v ((index w thr : ℤ) - 1), npCol v ((index w thr : ℤ) + 1))

/-- `nb_directions = direction_vectors.shape[0]`: two stacked directions. -/
def nb_directions : ℕ := 2

/-- Modelled from the spec: the spec's direction-selection algorithm
("locate the first eigenvalue (in whatever order returned) exceeding the
fixed threshold 1e-6"), to be compared with the source's `index`. -/
def specFirstExceeding {α : Type} [LinearOrder α] {N : ℕ}
    (w : Fin N → α) (thr : α) : ℕ :=
  npArgmaxMask (List.ofFn (fun i => decide (thr < w i)))

/-! ### Basic lemmas about `firstTrue` -/

theorem firstTrue_eq_none {l : List Bool} (h : ∀ b ∈ l, b = false) :
    firstTrue l = none := by
  induction l with
  | nil => rfl
  | cons b rest ih =>
    have hb : b = false := h b (List.mem_cons_self b rest)
    simp [firstTrue, hb, ih (fun x hx => h x (List.mem_cons_of_mem b hx))]

theorem firstTrue_cons_false {l : List Bool} :
    firstTrue (false :: l) = (firstTrue l).map (· + 1) := by
  simp [firstTrue]

theorem firstTrue_cons_true {l : List Bool} :
    firstTrue (true :: l) = some 0 := by
  simp [firstTrue]

/-- If `firstTrue` returns `some k`, then `k` is in range, the entry at `k`
is `true`, and all earlier entries are `false`. -/
theorem firstTrue_spec {l : List Bool} {k : ℕ} (h : firstTrue l = some k) :
    k < l.length ∧ l.getD k false = true ∧ ∀ j < k, l.getD j false = false := by
  induction l generalizing k with
  | nil => simp [firstTrue] at h
  | cons b rest ih =>
    by_cases hb : b = true
    · subst hb
      rw [firstTrue_cons_true] at h
      obtain rfl : k = 0 := by simpa using h.symm
      refine ⟨by simp, by simp, fun j hj => absurd hj (by omega)⟩
    · have hb' : b = false := by simpa using hb
      subst hb'
      rw [firstTrue_cons_false] at h
      obtain ⟨k0, hk0, rfl⟩ := Option.map_eq_some'.1 h
      obtain ⟨h1, h2, h3⟩ := ih hk0
      refine ⟨by simpa using h1, by simpa using h2, ?_⟩
      intro j hj
      match j with
      | 0 => simp
      | j + 1 =>
        have : j < k0 := by omega
        simpa using h3 j this

theorem firstTrue_isSome {l : List Bool} {k : ℕ} (hk : k < l.length)
    (h : l.getD k false = true) : (firstTrue l).isSome := by
  induction l generalizing k with
  | nil => simp at hk
  | cons b rest ih =>
    by_cases hb : b = true
    · subst hb; simp [firstTrue_cons_true]
    · have hb' : b = false := by simpa using hb
      subst hb'
      rw [firstTrue_cons_false]
      match k with
      | 0 => simp at h
      | k + 1 =>
        have := ih (k := k) (by simpa using hk) (by simpa using h)
        simpa [Option.isSome_map] using this

theorem belowMask_length {α : Type} [LinearOrder α] {N : ℕ}
    (w : Fin N → α) (thr : α) : (belowMask w thr).length = N := by
  simp [belowMask]

theorem belowMask_getD {α : Type} [LinearOrder α] {N : ℕ}
    (w : Fin N → α) (thr : α) {j : ℕ} (hj : j < N) :
    (belowMask w thr).getD j false = decide (w ⟨j, hj⟩ < thr) := by
  rw [belowMask, List.getD_eq_getElem _ _ (by simpa using hj)]
  simp

theorem index_lt {α : Type} [LinearOrder α] {N : ℕ}
    (w : Fin N → α) (thr : α) (hN : 0 < N) : index w thr < N := by
  rw [index, npArgmaxMask]
  cases h : firstTrue (belowMask w thr) with
  | none => simpa using hN
  | some k =>
    have := (firstTrue_spec h).1
    rw [belowMask_length] at this
    simpa using this

/-- When some eigenvalue lies below the threshold, `index` points at the
first such eigenvalue: the eigenvalue there is below the threshold and no
earlier one is. -/
theorem index_spec {α : Type} [LinearOrder α] {N : ℕ}
    {w : Fin N → α} {thr : α} (hex : ∃ i, w i < thr) :
    (∀ h : index w thr < N, w ⟨index w thr, h⟩ < thr) ∧
      ∀ j (hjN : j < N), j < index w thr → ¬ w ⟨j, hjN⟩ < thr := by
  obtain ⟨i, hi⟩ := hex
  have hsome : (firstTrue (belowMask w thr)).isSome := by
    refine firstTrue_isSome (k := i.1) ?_ ?_
    · rw [belowMask_length]; exact i.isLt
    · rw [belowMask_getD w thr i.isLt]
      simpa using hi
  obtain ⟨k, hk⟩ := Option.isSome_iff_exists.1 hsome
  have hidx : index w thr = k := by rw [index, npArgmaxMask, hk]; rfl
  obtain ⟨hk1, hk2, hk3⟩ := firstTrue_spec hk
  rw [belowMask_length] at hk1
  constructor
  · intro h
    rw [belowMask_getD w thr hk1] at hk2
    have : w ⟨k, hk1⟩ < thr := by simpa using hk2
    simpa [hidx] using this
  · intro j hjN hj
    have hjk : j < k := by omega
    have := hk3 j hjk
    rw [belowMask_getD w thr hjN] at this
    simpa using this

theorem index_eq_zero_of_forall {α : Type} [LinearOrder α] {N : ℕ}
    {w : Fin N → α} {thr : α} (hall : ∀ i, ¬ w i < thr) :
    index w thr = 0 := by
  have : firstTrue (belowMask w thr) = none := by
    refine firstTrue_eq_none ?_
    intro b hb
    rw [belowMask, List.mem_ofFn] at hb
    obtain ⟨i, rfl⟩ := hb
    simpa using hall i
  rw [index, npArgmaxMask, this]
  rfl

theorem npIdx_isSome_iff (N : ℕ) (i : ℤ) :
    (npIdx N i).isSome ↔ (-(N : ℤ) ≤ i ∧ i < N) := by
  rw [npIdx]
  by_cases h1 : 0 ≤ i ∧ i < (N : ℤ)
  · rw [dif_pos h1]
    simp only [Option.isSome_some, true_iff]
    omega
  · rw [dif_neg h1]
    by_cases h2 : -(N : ℤ) ≤ i ∧ i < 0
    · rw [dif_pos h2]
      simp only [Option.isSome_some, true_iff]
      omega
    · rw [dif_neg h2]
      simp only [Option.isSome_none, Bool.false_eq_true, false_iff]
      omega

/-- The notebook's fixed eigenvalue threshold `1e-6`, as an exact rational
(`mkRat` keeps concrete computations kernel-reducible). -/
def eigThreshold : ℚ := mkRat 1 1000000

theorem eigThreshold_eq : eigThreshold = 1 / 1000000 := by
  norm_num [eigThreshold, mkRat, Rat.normalize]

/-- Sample eigenvector matrices used to instantiate hypotheses. -/
def v2sample : Fin 2 → Fin 2 → ℚ :=
  ![![1, 0], ![0, 1]]

def v3sample : Fin 3 → Fin 3 → ℚ :=
  fun r c => (r : ℚ) + 10 * (c : ℚ)

/-- Claim C2, counterexample: on the eigenvalue array `w = [2, 0]` with
threshold `1e-6`, the code's `index = np.argmax(w < 1e-6)` is `1`, whereas
the index of the first eigenvalue exceeding the threshold is `0`; moreover
the eigenvalue at `index - 1` is `2`, which is not below the threshold, so
the eigenvector at `index - 1` is not the degenerate direction. -/
theorem index_not_first_exceeding_cex :
    index (α := ℚ) ![2, 0] eigThreshold = 1 ∧
      specFirstExceeding (α := ℚ) ![2, 0] eigThreshold = 0 ∧
      ¬ ((![2, 0] : Fin 2 → ℚ) 0 < eigThreshold) := by
  decide

/-- Claim C2 (amended): `index` is the position of the first eigenvalue
strictly below the threshold `1e-6`; when the eigenvalues are
non-increasing in the returned order and `index` is interior, the
eigenvalue at `index - 1` is at least the threshold (non-degenerate
direction) and the eigenvalue at `index + 1` is below it (degenerate
direction), and the selection returns exactly the eigenvector columns
`index - 1` and `index + 1`, in this order. -/
theorem index_first_below_threshold {α : Type} [LinearOrder α] {N : ℕ}
    (w : Fin N → α) (v : Fin N → Fin N → α) (thr : α)
    (hex : ∃ i, w i < thr)
    (hanti : ∀ i j : Fin N, i ≤ j → w j ≤ w i)
    (hpos : 0 < index w thr) (hlt : index w thr + 1 < N) :
    (∀ h : index w thr - 1 < N, thr ≤ w ⟨index w thr - 1, h⟩) ∧
      (∀ h : index w thr + 1 < N, w ⟨index w thr + 1, h⟩ < thr) ∧
      direction_vectors w v thr =
        (some (fun r => v r ⟨index w thr - 1, by omega⟩),
          some (fun r => v r ⟨index w thr + 1, hlt⟩)) := by
  obtain ⟨hat, hbefore⟩ := index_spec hex
  have hidxN : index w thr < N := by omega
  refine ⟨?_, ?_, ?_⟩
  · intro h
    exact not_lt.mp (hbefore _ h (by omega))
  · intro h
    have h1 : w ⟨index w thr, hidxN⟩ < thr := hat hidxN
    have h2 : w ⟨index w thr + 1, h⟩ ≤ w ⟨index w thr, hidxN⟩ := by
      refine hanti _ _ ?_
      simp [Fin.le_def]
    exact lt_of_le_of_lt h2 h1
  · have h1 : npIdx N ((index w thr : ℤ) - 1) = some ⟨index w thr - 1, by omega⟩ := by
      rw [npIdx, dif_pos (by omega)]
      exact congrArg some (Fin.ext (by simp only []; omega))
    have h2 : npIdx N ((index w thr : ℤ) + 1) = some ⟨index w thr + 1, hlt⟩ := by
      rw [npIdx, dif_pos (by omega)]
      exact congrArg some (Fin.ext (by simp only []; omega))
    rw [direction_vectors, npCol, npCol, h1, h2]
    rfl

/-- Witness for `index_first_below_threshold` at `w = [2, 0, -1]`. -/
theorem index_first_below_threshold_witness :
    (∃ i : Fin 3, (![2, 0, -1] : Fin 3 → ℚ) i < eigThreshold) ∧
      (∀ i j : Fin 3, i ≤ j →
        (![2, 0, -1] : Fin 3 → ℚ) j ≤ (![2, 0, -1] : Fin 3 → ℚ) i) ∧
      0 < index (α := ℚ) ![2, 0, -1] eigThreshold ∧
      index (α := ℚ) ![2, 0, -1] eigThreshold + 1 < 3 ∧
      ((∀ h : index (α := ℚ) ![2, 0, -1] eigThreshold - 1 < 3,
          eigThreshold ≤
            (![2, 0, -1] : Fin 3 → ℚ)
              ⟨index (α := ℚ) ![2, 0, -1] eigThreshold - 1, h⟩) ∧
        (∀ h : index (α := ℚ) ![2, 0, -1] eigThreshold + 1 < 3,
          (![2, 0, -1] : Fin 3 → ℚ)
              ⟨index (α := ℚ) ![2, 0, -1] eigThreshold + 1, h⟩ < eigThreshold) ∧
        direction_vectors (α := ℚ) ![2, 0, -1] v3sample eigThreshold =
          (some (fun r => v3sample r
              ⟨index (α := ℚ) ![2, 0, -1] eigThreshold - 1, by decide⟩),
            some (fun r => v3sample r
              ⟨index (α := ℚ) ![2, 0, -1] eigThreshold + 1, by decide⟩))) :=
  ⟨⟨1, by decide⟩, by decide, by decide, by decide,
    index_first_below_threshold (α := ℚ) ![2, 0, -1] v3sample eigThreshold
      ⟨1, by decide⟩ (by decide) (by decide) (by decide)⟩

/-- Claim C8, counterexample: on `w = [2, 0]` the first below-threshold
eigenvalue sits at the last index, so reading `v[:, index + 1]` is an
`IndexError`: the selection does not return a pair of direction vectors. -/
theorem direction_selection_failure_cex :
    (direction_vectors (α := ℚ) ![2, 0] v2sample eigThreshold).2 = none := by
  decide

/-- Claim C8 (amended): for every eigenvalue array `w` (with at least two
entries) whose `index` does not fall on the last position — including
spectra with no eigenvalue below the threshold — the direction selection
returns a pair of direction vectors without signalling any failure. -/
theorem direction_selection_total_unless_last {α : Type} [LinearOrder α]
    {N : ℕ} (w : Fin N → α) (v : Fin N → Fin N → α) (thr : α)
    (hN : 2 ≤ N) (hne : index w thr ≠ N - 1) :
    ∃ c1 c2, direction_vectors w v thr = (some c1, some c2) := by
  have hk : index w thr < N := index_lt w thr (by omega)
  have h1 : (npIdx N ((index w thr : ℤ) - 1)).isSome := by
    rw [npIdx_isSome_iff]
    omega
  have h2 : (npIdx N ((index w thr : ℤ) + 1)).isSome := by
    rw [npIdx_isSome_iff]
    omega
  obtain ⟨j1, hj1⟩ := Option.isSome_iff_exists.1 h1
  obtain ⟨j2, hj2⟩ := Option.isSome_iff_exists.1 h2
  refine ⟨fun r => v r j1, fun r => v r j2, ?_⟩
  rw [direction_vectors, npCol, npCol, hj1, hj2]
  rfl

/-- Witness for `direction_selection_total_unless_last` at `w = [2, 0, 0]`. -/
theorem direction_selection_total_unless_last_witness :
    2 ≤ 3 ∧ index (α := ℚ) ![2, 0, 0] eigThreshold ≠ 3 - 1 ∧
      ∃ c1 c2, direction_vectors (α := ℚ) ![2, 0, 0] v3sample eigThreshold =
        (some c1, some c2) :=
  ⟨by norm_num, by decide,
    direction_selection_total_unless_last (α := ℚ) ![2, 0, 0] v3sample
      eigThreshold (by norm_num) (by decide)⟩

/-- Claim C10: with no eigenvalue below the threshold the all-`false` mask
has argmax `0`, and the selection reads the last column `v[:, -1]` (by
negative-index wrap-around) and column `v[:, 1]` without error; conversely,
when `index` falls on the last position, reading `v[:, index + 1]` indexes
one past the final column and fails. -/
theorem argmax_allfalse_wrap_and_overflow {α : Type} [LinearOrder α]
    {N : ℕ} (w : Fin N → α) (v : Fin N → Fin N → α) (thr : α) (hN : 2 ≤ N) :
    ((∀ i, ¬ w i < thr) →
      index w thr = 0 ∧
        direction_vectors w v thr =
          (some (fun r => v r ⟨N - 1, by omega⟩),
            some (fun r => v r ⟨1, by omega⟩))) ∧
      (index w thr = N - 1 → (direction_vectors w v thr).2 = none) := by
  constructor
  · intro hall
    have hidx : index w thr = 0 := index_eq_zero_of_forall hall
    refine ⟨hidx, ?_⟩
    have h1 : npIdx N ((index w thr : ℤ) - 1) = some ⟨N - 1, by omega⟩ := by
      rw [hidx, npIdx]
      rw [dif_neg (by omega), dif_pos (by omega)]
      exact congrArg some (Fin.ext (by simp; omega))
    have h2 : npIdx N ((index w thr : ℤ) + 1) = some ⟨1, by omega⟩ := by
      rw [hidx, npIdx, dif_pos (by omega)]
      exact congrArg some (Fin.ext (by simp))
    rw [direction_vectors, npCol, npCol, h1, h2]
    rfl
  · intro hlast
    have h2 : npIdx N ((index w thr : ℤ) + 1) = none := by
      rw [hlast, npIdx, dif_neg (by omega), dif_neg (by omega)]
    show (npCol v ((index w thr : ℤ) + 1)) = none
    rw [npCol, h2]
    rfl

/-- Witness for `argmax_allfalse_wrap_and_overflow`: the wrap-around branch
at `w = [2, 3]` and the overflow branch at `w = [2, 0]`. -/
theorem argmax_allfalse_wrap_and_overflow_witness :
    ((2 ≤ 2 ∧ ∀ i : Fin 2, ¬ (![2, 3] : Fin 2 → ℚ) i < eigThreshold) ∧
      index (α := ℚ) ![2, 3] eigThreshold = 0 ∧
        direction_vectors (α := ℚ) ![2, 3] v2sample eigThreshold =
          (some (fun r => v2sample r ⟨2 - 1, by omega⟩),
            some (fun r => v2sample r ⟨1, by omega⟩))) ∧
      (index (α := ℚ) ![2, 0] eigThreshold = 2 - 1 ∧
        (direction_vectors (α := ℚ) ![2, 0] v2sample eigThreshold).2 = none) :=
  ⟨⟨⟨le_refl 2, by decide⟩,
      (argmax_allfalse_wrap_and_overflow (α := ℚ) ![2, 3] v2sample
          eigThreshold (le_refl 2)).1 (by decide)⟩,
    ⟨by decide,
      (argmax_allfalse_wrap_and_overflow (α := ℚ) ![2, 0] v2sample
          eigThreshold (le_refl 2)).2 (by decide)⟩⟩

/-! ## Taylor-coefficient extraction (notebook cell `28331961`) -/

/-- `e = tf.constant([1., 0.])`: the non-degenerate coordinate axis. -/
def e {α : Type} [Field α] : Fin 2 → α := ![1, 0]

/-- `f = tf.constant([0., 1.])`: the degenerate coordinate axis. -/
def f {α : Type} [Field α] : Fin 2 → α := ![0, 1]

/-- `tf.reshape(x, [1, 2])`. -/
def reshape12 {α : Type} (x : Fin 2 → α) : Fin 1 → Fin 2 → α :=
  fun _ j => x j

/-- `tf.reshape(T, [1, 2, 2])`. -/
def reshape122 {α : Type} (T : Fin 2 → Fin 2 → α) :
    Fin 1 → Fin 2 → Fin 2 → α :=
  fun _ => T

/-- `e2 = tf.tensordot(e.reshape(1,2), e.reshape(1,2), [[0],[0]])`. -/
def e2 {α : Type} [Field α] : Fin 2 → Fin 2 → α :=
  fun a b => ∑ i : Fin 1, reshape12 e i a * reshape12 e i b

/-- `f2 = tf.tensordot(f.reshape(1,2), f.reshape(1,2), [[0],[0]])`. -/
def f2 {α : Type} [Field α] : Fin 2 → Fin 2 → α :=
  fun a b => ∑ i : Fin 1, reshape12 f i a * reshape12 f i b

/-- `ef2 = tf.tensordot(e.reshape(1,2), f2.reshape(1,2,2), [[0],[0]])`. -/
def ef2 {α : Type} [Field α] : Fin 2 → Fin 2 → Fin 2 → α :=
  fun a b c => ∑ i : Fin 1, reshape12 e i a * reshape122 f2 i b c

/-- `f4 = tf.tensordot(f2.reshape(1,2,2), f2.reshape(1,2,2), [[0],[0]])`. -/
def f4 {α : Type} [Field α] : Fin 2 → Fin 2 → Fin 2 → Fin 2 → α :=
  fun a b c d => ∑ i : Fin 1, reshape122 f2 i a b * reshape122 f2 i c d

/-- `coeff_T2 = 0.5 * tf.tensordot(T2, e2, [[0,1],[0,1]])`. -/
def coeff_T2 {α : Type} [Field α] (T : Fin 2 → Fin 2 → α) : α :=
  (1 / 2) * ∑ a, ∑ b, T a b * e2 a b

/-- `coeff_T3 = 0.5 * tf.tensordot(T3, ef2, [[0,1,2],[0,1,2]])`. -/
def coeff_T3 {α : Type} [Field α] (T : Fin 2 → Fin 2 → Fin 2 → α) : α :=
  (1 / 2) * ∑ a, ∑ b, ∑ c, T a b c * ef2 a b c

/-- `coeff_T4 = (1./24.) * tf.tensordot(T4, f4, [[0,1,2,3],[0,1,2,3]])`. -/
def coeff_T4 {α : Type} [Field α] (T : Fin 2 → Fin 2 → Fin 2 → Fin 2 → α) : α :=
  (1 / 24) * ∑ a, ∑ b, ∑ c, ∑ d, T a b c d * f4 a b c d

/-- Claim C5: the contraction against the outer-product kernels of the unit
vectors `e = (1,0)` and `f = (0,1)` reduces each coefficient to a single
tensor entry with the stated normalization: `coeff_T2 = (1/2)·T2[0,0]`,
`coeff_T3 = (1/2)·T3[0,1,1]`, `coeff_T4 = (1/24)·T4[1,1,1,1]`. -/
theorem coeff_extraction_entries {α : Type} [Field α]
    (T2 : Fin 2 → Fin 2 → α) (T3 : Fin 2 → Fin 2 → Fin 2 → α)
    (T4 : Fin 2 → Fin 2 → Fin 2 → Fin 2 → α) :
    coeff_T2 T2 = (1 / 2) * T2 0 0 ∧
      coeff_T3 T3 = (1 / 2) * T3 0 1 1 ∧
      coeff_T4 T4 = (1 / 24) * T4 1 1 1 1 := by
  refine ⟨?_, ?_, ?_⟩ <;>
    · simp [coeff_T2, coeff_T3, coeff_T4, e2, ef2, f4, f2, e, f,
        reshape12, reshape122, Fin.sum_univ_two]
      try ring

/-! ## Weight assignment into `model_c` (notebook cell `01ff8d44`) -/

/-- `nb_layer = 2`: the position of the custom layer in `model_c`. -/
def nb_layer : ℕ := 2

/-- The loop
`for k in [i for i in range(len(model_c.layers)) if i != nb_layer]:
model_c.layers[k].set_weights(x_star[k])`.  A layer's weight list is
modelled as a list of flattened tensors. -/
def copy_xstar_loop (xstar init : ℕ → List (List ℚ)) : ℕ → List (List ℚ) :=
  ((List.range 4).filter (fun i => i != nb_layer)).foldl
    (fun s k => Function.update s k (xstar k)) init

/-- `model_c.layers[nb_layer].set_weights([tf.zeros([nb_directions,])])`:
the custom layer's only weight, the `nb_directions`-entry coordinate
vector, set to zero. -/
def custom_zero_weights : List (List ℚ) :=
  [List.replicate nb_directions 0]

/-- The full weight state of `model_c` after cell `01ff8d44` runs. -/
def modelC_assigned (xstar init : ℕ → List (List ℚ)) : ℕ → List (List ℚ) :=
  Function.update (copy_xstar_loop xstar init) nb_layer custom_zero_weights

/-- Claim C7: after the assignment step, every layer of `model_c` other
than the custom layer holds exactly the frozen `x_star` weights of the
corresponding layer, and the custom layer holds exactly one weight, the
2-entry coordinate vector set to zero. -/
theorem modelC_weights_frame (xstar init : ℕ → List (List ℚ))
    (k : ℕ) (hk : k < 4) :
    (k ≠ nb_layer → modelC_assigned xstar init k = xstar k) ∧
      modelC_assigned xstar init nb_layer = [List.replicate 2 0] := by
  have hfilter : (List.range 4).filter (fun i => i != nb_layer) = [0, 1, 3] := by
    decide
  have hfoldl : copy_xstar_loop xstar init =
      Function.update (Function.update (Function.update init 0 (xstar 0)) 1
        (xstar 1)) 3 (xstar 3) := by
    rw [copy_xstar_loop, hfilter]
    rfl
  constructor
  · intro hne
    rw [modelC_assigned, Function.update_noteq hne, hfoldl]
    interval_cases k
    · simp [Function.update]
    · simp [Function.update]
    · exact absurd (rfl : (2 : ℕ) = nb_layer) hne
    · simp [Function.update]
  · rw [modelC_assigned, Function.update_same]
    rfl

/-- Witness for `modelC_weights_frame` at layer `0`. -/
theorem modelC_weights_frame_witness :
    (0 : ℕ) < 4 ∧ (0 : ℕ) ≠ nb_layer ∧
      modelC_assigned (fun _ => [[1]]) (fun _ => []) 0 = [[1]] ∧
      modelC_assigned (fun _ => [[1]]) (fun _ => []) nb_layer =
        [List.replicate 2 0] :=
  ⟨by norm_num, by decide,
    (modelC_weights_frame (fun _ => [[1]]) (fun _ => []) 0 (by norm_num)).1
      (by decide),
    (modelC_weights_frame (fun _ => [[1]]) (fun _ => []) 0 (by norm_num)).2⟩

/-! ## Forward passes (notebook cells `6fe06936`, `32429145`, `01ff8d44`) -/

/-- `relu`. -/
def relu {α : Type} [LinearOrderedField α] (x : α) : α := max x 0

/-- `tf.keras.layers.Dense` forward pass:
`activation(inputs @ kernel + bias)` (activation skipped when `None`). -/
def dense {α : Type} [LinearOrderedField α] {d1 d2 : ℕ}
    (kernel : Fin d1 → Fin d2 → α) (bias : Fin d2 → α)
    (activation : Option (α → α)) (inputs : Fin d1 → α) : Fin d2 → α :=
  let preact := fun j => (∑ i, inputs i * kernel i j) + bias j
  match activation with
  | none => preact
  | some a => fun j => a (preact j)

/-- The trained model on an already-flattened input:
`Flatten → Dense(relu) → Dense(relu) → Dense`. -/
def model_forward {α : Type} [LinearOrderedField α] {din nh1 nh2 nout : ℕ}
    (W1 : Fin din → Fin nh1 → α) (b1 : Fin nh1 → α)
    (W2 : Fin nh1 → Fin nh2 → α) (b2 : Fin nh2 → α)
    (W3 : Fin nh2 → Fin nout → α) (b3 : Fin nout → α)
    (x : Fin din → α) : Fin nout → α :=
  dense W3 b3 none (dense W2 b2 (some relu) (dense W1 b1 (some relu) x))

/-- Row-major flat index `i*n + j` of the entry `(i, j)` of an
`m × n` tensor. -/
def finPair {m n : ℕ} (i : Fin m) (j : Fin n) : Fin (m * n) :=
  ⟨i.1 * n + j.1, by
    calc i.1 * n + j.1 < i.1 * n + n := by omega
      _ = (i.1 + 1) * n := by ring
      _ ≤ m * n := Nat.mul_le_mul_right n i.isLt⟩

/-- `tf.reshape(direction_vectors, [2, m, n])` in `CustomLayer.__init__`. -/
def reshape_directions {α : Type} {m n : ℕ} (dv : Fin 2 → Fin (m * n) → α) :
    Fin 2 → Fin m → Fin n → α :=
  fun s i j => dv s (finPair i j)

/-- `CustomLayer.call`:
`outputs = inputs @ (x_star[0] + tensordot(kernel, direction_vectors,
[[0],[0]])) + x_star[1]`, then the activation only if one was configured. -/
def customLayer_call {α : Type} [LinearOrderedField α] {m n : ℕ}
    (xstar0 : Fin m → Fin n → α) (xstar1 : Fin n → α)
    (dv : Fin 2 → Fin (m * n) → α) (activation : Option (α → α))
    (kernel : Fin 2 → α) (inputs : Fin m → α) : Fin n → α :=
  let dirs := reshape_directions dv
  let newW := fun i j => xstar0 i j + ∑ s, kernel s * dirs s i j
  let preact := fun j => (∑ i, inputs i * newW i j) + xstar1 j
  match activation with
  | none => preact
  | some a => fun j => a (preact j)

/-- `model_c` on an already-flattened input:
`Flatten → Dense(relu) → CustomLayer (no activation) → Dense`.  The custom
layer is constructed as `CustomLayer([x_star kernel, x_star bias],
direction_vectors)`, leaving its `activation` at the default `None`. -/
def modelC_forward {α : Type} [LinearOrderedField α] {din nh1 nh2 nout : ℕ}
    (W1 : Fin din → Fin nh1 → α) (b1 : Fin nh1 → α)
    (xstar0 : Fin nh1 → Fin nh2 → α) (xstar1 : Fin nh2 → α)
    (dv : Fin 2 → Fin (nh1 * nh2) → α)
    (W3 : Fin nh2 → Fin nout → α) (b3 : Fin nout → α)
    (t : Fin 2 → α) (x : Fin din → α) : Fin nout → α :=
  dense W3 b3 none
    (customLayer_call xstar0 xstar1 dv none t (dense W1 b1 (some relu) x))

/-- Claim C9: in `model_c` the custom layer runs with `activation = None`,
so its output on any input and any coordinate value `(t 0, t 1)` is exactly
the affine expression `inputs · (W* + t1·d1 + t2·d2) + b*` with no
nonlinearity, whereas the original model's layer at the same position is a
`Dense` layer that applies `relu` to its affine expression. -/
theorem customLayer_affine_no_relu {α : Type} [LinearOrderedField α]
    {din nh1 nh2 nout : ℕ}
    (W1 : Fin din → Fin nh1 → α) (b1 : Fin nh1 → α)
    (W2 : Fin nh1 → Fin nh2 → α) (b2 : Fin nh2 → α)
    (xstar0 : Fin nh1 → Fin nh2 → α) (xstar1 : Fin nh2 → α)
    (dv : Fin 2 → Fin (nh1 * nh2) → α)
    (W3 : Fin nh2 → Fin nout → α) (b3 : Fin nout → α)
    (t : Fin 2 → α) (inputs : Fin nh1 → α) (x : Fin din → α) :
    (customLayer_call xstar0 xstar1 dv none t inputs = fun j =>
      (∑ i, inputs i * (xstar0 i j + t 0 * reshape_directions dv 0 i j
        + t 1 * reshape_directions dv 1 i j)) + xstar1 j) ∧
      (dense W2 b2 (some relu) inputs = fun j =>
        relu ((∑ i, inputs i * W2 i j) + b2 j)) ∧
      modelC_forward W1 b1 xstar0 xstar1 dv W3 b3 t x =
        dense W3 b3 none
          (customLayer_call xstar0 xstar1 dv none t
            (dense W1 b1 (some relu) x)) := by
  refine ⟨?_, rfl, rfl⟩
  funext j
  show (∑ i, inputs i *
      (xstar0 i j + ∑ s, t s * reshape_directions dv s i j)) + xstar1 j = _
  congr 1
  refine Finset.sum_congr rfl fun i _ => ?_
  rw [Fin.sum_univ_two]
  ring

/-- Claim C1 (code bug evidence): a width-1 instance on which the
reparametrized model at coordinates `(0, 0)` does not reproduce the
original model's output on the same input: with `W1 = (1)`, `b1 = (0)`,
`W2 = (-1)`, `b2 = (0)`, `W3 = (1)`, `b3 = (0)` and input `x = (1)`, the
original model outputs `0` (the second `relu` clips `-1`) while `model_c`
outputs `-1` (its custom layer applies no `relu`). -/
theorem reparametrized_model_not_equivalent_cex :
    modelC_forward
        (fun _ : Fin 1 => fun _ : Fin 1 => (1 : ℚ)) (fun _ : Fin 1 => 0)
        (fun _ : Fin 1 => fun _ : Fin 1 => -1) (fun _ : Fin 1 => 0)
        (fun _ : Fin 2 => fun _ : Fin (1 * 1) => 7)
        (fun _ : Fin 1 => fun _ : Fin 1 => 1) (fun _ : Fin 1 => 0)
        (fun _ : Fin 2 => 0) (fun _ : Fin 1 => 1) ≠
      model_forward
        (fun _ : Fin 1 => fun _ : Fin 1 => (1 : ℚ)) (fun _ : Fin 1 => 0)
        (fun _ : Fin 1 => fun _ : Fin 1 => -1) (fun _ : Fin 1 => 0)
        (fun _ : Fin 1 => fun _ : Fin 1 => 1) (fun _ : Fin 1 => 0)
        (fun _ : Fin 1 => 1) := by
  intro hEq
  have h := congrFun hEq 0
  simp [modelC_forward, model_forward, dense, customLayer_call, relu,
    reshape_directions, Fin.sum_univ_one, Fin.sum_univ_two] at h

/-! ## Nested `GradientTape` differentiation

A gradient-tape pass computes, for each entry of the variable tensor, the
derivative of its (scalar) target along the corresponding coordinate
direction.  We model one such entry as a directional derivative and the
stacked `jacobian` passes of `T2_compute` / `T4_compute` as nested
directional derivatives along basis directions. -/

/-- Directional derivative of `F` at `x` along `v`. -/
noncomputable def dirDeriv {E : Type} [NormedAddCommGroup E]
    [NormedSpace ℝ E] (F : E → ℝ) (x v : E) : ℝ :=
  deriv (fun s : ℝ => F (x + s • v)) 0

theorem dirDeriv_eq_lineDeriv {E : Type} [NormedAddCommGroup E]
    [NormedSpace ℝ E] (F : E → ℝ) (x v : E) :
    dirDeriv F x v = lineDeriv ℝ F x v :=
  rfl

theorem dirDeriv_eq_fderiv {E : Type} [NormedAddCommGroup E]
    [NormedSpace ℝ E] {F : E → ℝ} {x : E} (h : DifferentiableAt ℝ F x)
    (v : E) : dirDeriv F x v = fderiv ℝ F x v := by
  rw [dirDeriv_eq_lineDeriv]
  exact h.lineDeriv_eq_fderiv

/-- One tape pass on top of `k` previous ones: the directional derivative
of an entry of the `k`-th iterated derivative is the corresponding entry of
the `(k+1)`-st iterated derivative, the new direction coming first. -/
theorem dirDeriv_iteratedFDeriv {E : Type} [NormedAddCommGroup E]
    [NormedSpace ℝ E] {G : E → ℝ} {N k : ℕ} (hG : ContDiff ℝ (N : ℕ∞) G)
    (hk : k < N) (x v : E) (m : Fin k → E) :
    dirDeriv (fun y => iteratedFDeriv ℝ k G y m) x v =
      iteratedFDeriv ℝ (k + 1) G x (Fin.cons v m) := by
  have hdiff : DifferentiableAt ℝ (fun y => iteratedFDeriv ℝ k G y) x :=
    (hG.differentiable_iteratedFDeriv (by exact_mod_cast hk)).differentiableAt
  rw [dirDeriv_eq_fderiv (hdiff.continuousMultilinear_apply_const m) v]
  rw [fderiv_continuousMultilinear_apply_const_apply hdiff m v]
  rw [iteratedFDeriv_succ_apply_left]
  simp

/-- One nested tape pair computes second-derivative entries. -/
theorem dirDeriv_two {E : Type} [NormedAddCommGroup E] [NormedSpace ℝ E]
    {G : E → ℝ} {N : ℕ} (hG : ContDiff ℝ (N : ℕ∞) G) (h2 : 2 ≤ N)
    (x v1 v2 : E) :
    dirDeriv (fun y => dirDeriv G y v1) x v2 =
      iteratedFDeriv ℝ 2 G x ![v2, v1] := by
  have h0 : ∀ y : E, dirDeriv G y v1 = iteratedFDeriv ℝ 1 G y ![v1] := by
    intro y
    have h0' : (fun z => iteratedFDeriv ℝ 0 G z (![] : Fin 0 → E)) = G := by
      funext z
      exact iteratedFDeriv_zero_apply _
    calc dirDeriv G y v1
        = dirDeriv (fun z => iteratedFDeriv ℝ 0 G z ![]) y v1 := by rw [h0']
      _ = iteratedFDeriv ℝ 1 G y (Fin.cons v1 ![]) :=
          dirDeriv_iteratedFDeriv hG (by omega) y v1 ![]
  calc dirDeriv (fun y => dirDeriv G y v1) x v2
      = dirDeriv (fun y => iteratedFDeriv ℝ 1 G y ![v1]) x v2 := by
        simp only [h0]
    _ = iteratedFDeriv ℝ 2 G x (Fin.cons v2 ![v1]) :=
        dirDeriv_iteratedFDeriv hG (by omega) x v2 ![v1]

/-- Three nested tapes compute third-derivative entries. -/
theorem dirDeriv_three {E : Type} [NormedAddCommGroup E] [NormedSpace ℝ E]
    {G : E → ℝ} {N : ℕ} (hG : ContDiff ℝ (N : ℕ∞) G) (h3 : 3 ≤ N)
    (x v1 v2 v3 : E) :
    dirDeriv (fun y => dirDeriv (fun z => dirDeriv G z v1) y v2) x v3 =
      iteratedFDeriv ℝ 3 G x ![v3, v2, v1] := by
  calc dirDeriv (fun y => dirDeriv (fun z => dirDeriv G z v1) y v2) x v3
      = dirDeriv (fun y => iteratedFDeriv ℝ 2 G y ![v2, v1]) x v3 := by
        simp only [fun y => dirDeriv_two hG (by omega) y v1 v2]
    _ = iteratedFDeriv ℝ 3 G x (Fin.cons v3 ![v2, v1]) :=
        dirDeriv_iteratedFDeriv hG (by omega) x v3 ![v2, v1]

/-- Four nested tapes compute fourth-derivative entries. -/
theorem dirDeriv_four {E : Type} [NormedAddCommGroup E] [NormedSpace ℝ E]
    {G : E → ℝ} {N : ℕ} (hG : ContDiff ℝ (N : ℕ∞) G) (h4 : 4 ≤ N)
    (x v1 v2 v3 v4 : E) :
    dirDeriv (fun y =>
        dirDeriv (fun z => dirDeriv (fun u => dirDeriv G u v1) z v2) y v3)
      x v4 = iteratedFDeriv ℝ 4 G x ![v4, v3, v2, v1] := by
  have h3 : (fun y =>
      dirDeriv (fun z => dirDeriv (fun u => dirDeriv G u v1) z v2) y v3) =
      fun y => iteratedFDeriv ℝ 3 G y ![v3, v2, v1] :=
    funext fun y => dirDeriv_three hG (by omega) y v1 v2 v3
  rw [h3]
  exact dirDeriv_iteratedFDeriv hG (by omega) x v4 ![v3, v2, v1]

/-- Schwarz symmetry of the second iterated derivative of a `C²` function. -/
theorem iteratedFDeriv_two_swap {E : Type} [NormedAddCommGroup E]
    [NormedSpace ℝ E] {G : E → ℝ} (hG : ContDiff ℝ 2 G) (x u v : E) :
    iteratedFDeriv ℝ 2 G x ![u, v] = iteratedFDeriv ℝ 2 G x ![v, u] := by
  have hsym : IsSymmSndFDerivAt ℝ G x :=
    hG.contDiffAt.isSymmSndFDerivAt (by exact_mod_cast le_refl 2)
  rw [iteratedFDeriv_two_apply, iteratedFDeriv_two_apply]
  simpa using hsym.eq u v

/-! ## Python indexing into `trainable_variables` -/

/-- Python list indexing `l[i]` with negative-index wrap-around; `none`
models an `IndexError`. -/
def pyIndex {γ : Type} (l : List γ) (i : ℤ) : Option γ :=
  if 0 ≤ i then l[i.toNat]?
  else if 0 ≤ i + l.length then l[(i + l.length).toNat]?
  else none

/-- Shapes of `model.trainable_variables`: kernel and bias of each `Dense`
layer in build order (`Flatten` has no variables, the input is
`28·28·1 = 784` wide once flattened). -/
def model_var_shapes : List (List ℕ) :=
  [[784, 16], [16], [16, 16], [16], [16, 10], [10]]

/-- Shapes of `model_c.trainable_variables`: the custom layer contributes
exactly one variable, the `nb_directions`-entry coordinate vector. -/
def modelC_var_shapes : List (List ℕ) :=
  [[784, 16], [16], [nb_directions], [16, 10], [10]]

/-! ## `T2_compute` (notebook cell `d7df03ed`) -/

/-- Basis matrix with a single `1` at entry `(i, j)`: the direction along
which entry `(i, j)` of a tape's gradient/jacobian differentiates. -/
def matDir (m n : ℕ) (i : Fin m) (j : Fin n) : Fin m → Fin n → ℝ :=
  fun a b => if a = i ∧ b = j then 1 else 0

/-- Inner tape `g2.gradient(loss_value, W)`, entry `(i, j)`. -/
noncomputable def T2_grads {m n : ℕ} (L : (Fin m → Fin n → ℝ) → ℝ)
    (y : Fin m → Fin n → ℝ) (i : Fin m) (j : Fin n) : ℝ :=
  dirDeriv L y (matDir m n i j)

/-- `T2_compute`: the outer tape's `g1.jacobian(grads, W)`; entry
`(i, j, k, l)` is the derivative of `grads[i, j]` along `W[k, l]`. -/
noncomputable def T2_compute {m n : ℕ} (L : (Fin m → Fin n → ℝ) → ℝ)
    (W : Fin m → Fin n → ℝ) : Fin m → Fin n → Fin m → Fin n → ℝ :=
  fun i j k l => dirDeriv (fun z => T2_grads L z i j) W (matDir m n k l)

theorem fin_mul_pos_right {m n : ℕ} (p : Fin (m * n)) : 0 < n := by
  rcases Nat.eq_zero_or_pos n with h | h
  · subst h
    exact absurd p.2 (by simp)
  · exact h

/-- Row index of flat position `p` in the row-major `m × n` layout. -/
def finUnpair1 {m n : ℕ} (p : Fin (m * n)) : Fin m :=
  ⟨p.1 / n, Nat.div_lt_of_lt_mul (by rw [Nat.mul_comm n m]; exact p.2)⟩

/-- Column index of flat position `p` in the row-major `m × n` layout. -/
def finUnpair2 {m n : ℕ} (p : Fin (m * n)) : Fin n :=
  ⟨p.1 % n, Nat.mod_lt _ (fin_mul_pos_right p)⟩

/-- `hessian = tf.reshape(hessian, [m*n, m*n])` (row-major). -/
def hessian_reshaped {m n : ℕ} (T : Fin m → Fin n → Fin m → Fin n → ℝ) :
    Fin (m * n) → Fin (m * n) → ℝ :=
  fun p q => T (finUnpair1 p) (finUnpair2 p) (finUnpair1 q) (finUnpair2 q)

theorem finUnpair1_finPair {m n : ℕ} (i : Fin m) (j : Fin n) :
    finUnpair1 (finPair i j) = i := by
  apply Fin.ext
  show (i.1 * n + j.1) / n = i.1
  rw [Nat.mul_comm, Nat.mul_add_div j.pos, Nat.div_eq_of_lt j.2,
    Nat.add_zero]

theorem finUnpair2_finPair {m n : ℕ} (i : Fin m) (j : Fin n) :
    finUnpair2 (finPair i j) = j := by
  apply Fin.ext
  show (i.1 * n + j.1) % n = j.1
  rw [Nat.mul_comm, Nat.mul_add_mod]
  exact Nat.mod_eq_of_lt j.2

/-- The mixed second partial derivative of the loss with respect to the
block entries `(i, j)` and `(k, l)`, as an entry of the second iterated
Fréchet derivative. -/
noncomputable def mixedSecondDeriv {m n : ℕ} (L : (Fin m → Fin n → ℝ) → ℝ)
    (W : Fin m → Fin n → ℝ) (i : Fin m) (j : Fin n) (k : Fin m)
    (l : Fin n) : ℝ :=
  iteratedFDeriv ℝ 2 L W ![matDir m n i j, matDir m n k l]

/-- Claim C3: `nb = -4` selects the second `Dense` layer's kernel (the
third entry of the six `trainable_variables`), and for a twice
continuously differentiable loss the reshaped `(m·n) × (m·n)` matrix
satisfies `H[i·n+j, k·n+l] = ∂²L/∂W[i,j]∂W[k,l]` at the frozen block
value. -/
theorem T2_compute_hessian_entries {m n : ℕ}
    (L : (Fin m → Fin n → ℝ) → ℝ) (W : Fin m → Fin n → ℝ)
    (hL : ContDiff ℝ 2 L) :
    pyIndex model_var_shapes (-4) = some [16, 16] ∧
      ∀ (i : Fin m) (j : Fin n) (k : Fin m) (l : Fin n),
        hessian_reshaped (T2_compute L W) (finPair i j) (finPair k l) =
          mixedSecondDeriv L W i j k l := by
  have hL' : ContDiff ℝ ((2 : ℕ) : ℕ∞) L := by exact_mod_cast hL
  refine ⟨rfl, ?_⟩
  intro i j k l
  rw [hessian_reshaped, finUnpair1_finPair, finUnpair2_finPair,
    finUnpair1_finPair, finUnpair2_finPair]
  show dirDeriv (fun z => dirDeriv L z (matDir m n i j)) W (matDir m n k l)
    = mixedSecondDeriv L W i j k l
  rw [dirDeriv_two hL' (le_refl 2) W (matDir m n i j) (matDir m n k l),
    mixedSecondDeriv]
  exact iteratedFDeriv_two_swap hL W _ _

/-- Witness for `T2_compute_hessian_entries` at the constant-zero loss on
a `1 × 1` block. -/
theorem T2_compute_hessian_entries_witness :
    ContDiff ℝ 2 (fun _ : Fin 1 → Fin 1 → ℝ => (0 : ℝ)) ∧
      hessian_reshaped
          (T2_compute (fun _ : Fin 1 → Fin 1 → ℝ => (0 : ℝ)) (fun _ _ => 0))
          (finPair 0 0) (finPair 0 0) =
        mixedSecondDeriv (fun _ : Fin 1 → Fin 1 → ℝ => (0 : ℝ))
          (fun _ _ => 0) 0 0 0 0 :=
  ⟨contDiff_const,
    (T2_compute_hessian_entries (fun _ => (0 : ℝ)) (fun _ _ => 0)
      contDiff_const).2 0 0 0 0⟩

/-- Claim C6: for a twice continuously differentiable loss, the reshaped
Hessian matrix produced by `T2_compute` is symmetric. -/
theorem hessian_reshaped_symmetric {m n : ℕ}
    (L : (Fin m → Fin n → ℝ) → ℝ) (W : Fin m → Fin n → ℝ)
    (hL : ContDiff ℝ 2 L) (p q : Fin (m * n)) :
    hessian_reshaped (T2_compute L W) p q =
      hessian_reshaped (T2_compute L W) q p := by
  have hL' : ContDiff ℝ ((2 : ℕ) : ℕ∞) L := by exact_mod_cast hL
  show dirDeriv (fun z => dirDeriv L z (matDir m n (finUnpair1 p)
      (finUnpair2 p))) W (matDir m n (finUnpair1 q) (finUnpair2 q)) =
    dirDeriv (fun z => dirDeriv L z (matDir m n (finUnpair1 q)
      (finUnpair2 q))) W (matDir m n (finUnpair1 p) (finUnpair2 p))
  rw [dirDeriv_two hL' (le_refl 2), dirDeriv_two hL' (le_refl 2)]
  exact iteratedFDeriv_two_swap hL W _ _

/-- Witness for `hessian_reshaped_symmetric` at the constant-zero loss. -/
theorem hessian_reshaped_symmetric_witness :
    ContDiff ℝ 2 (fun _ : Fin 1 → Fin 1 → ℝ => (0 : ℝ)) ∧
      hessian_reshaped
          (T2_compute (fun _ : Fin 1 → Fin 1 → ℝ => (0 : ℝ)) (fun _ _ => 0))
          (finPair 0 0) (finPair 0 0) =
        hessian_reshaped
          (T2_compute (fun _ : Fin 1 → Fin 1 → ℝ => (0 : ℝ)) (fun _ _ => 0))
          (finPair 0 0) (finPair 0 0) :=
  ⟨contDiff_const,
    hessian_reshaped_symmetric (fun _ => (0 : ℝ)) (fun _ _ => 0)
      contDiff_const (finPair 0 0) (finPair 0 0)⟩

/-! ## `T4_compute` (notebook cell `dcaa4b74`) -/

/-- Coordinate direction `i` of the 2-entry coordinate tensor. -/
def coordDir (i : Fin 2) : Fin 2 → ℝ :=
  fun j => if j = i then 1 else 0

/-- Innermost tape `g4.gradient(loss_value, c)`, entry `i`. -/
noncomputable def T4_grads (G : (Fin 2 → ℝ) → ℝ) (y : Fin 2 → ℝ)
    (i : Fin 2) : ℝ :=
  dirDeriv G y (coordDir i)

/-- `hess_matrix = g3.jacobian(grads, c)`, entry `(i, j)`. -/
noncomputable def T4_hess (G : (Fin 2 → ℝ) → ℝ) (y : Fin 2 → ℝ)
    (i j : Fin 2) : ℝ :=
  dirDeriv (fun z => T4_grads G z i) y (coordDir j)

/-- `tensor_3 = g2.jacobian(hess_matrix, c)`, entry `(i, j, k)`. -/
noncomputable def T4_tensor3 (G : (Fin 2 → ℝ) → ℝ) (y : Fin 2 → ℝ)
    (i j k : Fin 2) : ℝ :=
  dirDeriv (fun z => T4_hess G z i j) y (coordDir k)

/-- `tensor_4 = g1.jacobian(tensor_3, c)`, entry `(i, j, k, l)`. -/
noncomputable def T4_tensor4 (G : (Fin 2 → ℝ) → ℝ) (y : Fin 2 → ℝ)
    (i j k l : Fin 2) : ℝ :=
  dirDeriv (fun z => T4_tensor3 G z i j k) y (coordDir l)

/-- `T4_compute`: the triple `(hess_matrix, tensor_3, tensor_4)` of the
four stacked tapes, shapes `(2,2)`, `(2,2,2)`, `(2,2,2,2)`. -/
noncomputable def T4_compute (G : (Fin 2 → ℝ) → ℝ) (y : Fin 2 → ℝ) :
    (Fin 2 → Fin 2 → ℝ) × (Fin 2 → Fin 2 → Fin 2 → ℝ) ×
      (Fin 2 → Fin 2 → Fin 2 → Fin 2 → ℝ) :=
  (T4_hess G y, T4_tensor3 G y, T4_tensor4 G y)

/-- Claim C4: `nb = -3` selects the 2-entry coordinate vector among
`model_c.trainable_variables`, and for a four-times continuously
differentiable loss `G` of the coordinates the three returned tensors are
exactly the order-2, order-3 and order-4 derivative tensors of `G` at the
zero coordinate vector: entry `(i, …)` is the iterated derivative of `G`
along the listed coordinate directions (by Schwarz symmetry of repeated
derivatives of smooth functions, the order in which the directions are
listed is immaterial). -/
theorem T4_compute_derivative_tensors (G : (Fin 2 → ℝ) → ℝ)
    (hG : ContDiff ℝ 4 G) :
    pyIndex modelC_var_shapes (-3) = some [nb_directions] ∧
      (∀ i j, (T4_compute G 0).1 i j =
        iteratedFDeriv ℝ 2 G 0 ![coordDir j, coordDir i]) ∧
      (∀ i j k, (T4_compute G 0).2.1 i j k =
        iteratedFDeriv ℝ 3 G 0 ![coordDir k, coordDir j, coordDir i]) ∧
      (∀ i j k l, (T4_compute G 0).2.2 i j k l =
        iteratedFDeriv ℝ 4 G 0
          ![coordDir l, coordDir k, coordDir j, coordDir i]) := by
  have hG' : ContDiff ℝ ((4 : ℕ) : ℕ∞) G := by exact_mod_cast hG
  refine ⟨rfl, ?_, ?_, ?_⟩
  · intro i j
    exact dirDeriv_two hG' (by omega) 0 (coordDir i) (coordDir j)
  · intro i j k
    exact dirDeriv_three hG' (by omega) 0 (coordDir i) (coordDir j)
      (coordDir k)
  · intro i j k l
    exact dirDeriv_four hG' (by omega) 0 (coordDir i) (coordDir j)
      (coordDir k) (coordDir l)

/-- Witness for `T4_compute_derivative_tensors` at the constant-zero
loss. -/
theorem T4_compute_derivative_tensors_witness :
    ContDiff ℝ 4 (fun _ : Fin 2 → ℝ => (0 : ℝ)) ∧
      pyIndex modelC_var_shapes (-3) = some [nb_directions] ∧
      (T4_compute (fun _ : Fin 2 → ℝ => (0 : ℝ)) 0).1 0 1 =
        iteratedFDeriv ℝ 2 (fun _ : Fin 2 → ℝ => (0 : ℝ)) 0
          ![coordDir 1, coordDir 0] ∧
      (T4_compute (fun _ : Fin 2 → ℝ => (0 : ℝ)) 0).2.1 0 1 1 =
        iteratedFDeriv ℝ 3 (fun _ : Fin 2 → ℝ => (0 : ℝ)) 0
          ![coordDir 1, coordDir 1, coordDir 0] ∧
      (T4_compute (fun _ : Fin 2 → ℝ => (0 : ℝ)) 0).2.2 1 1 1 1 =
        iteratedFDeriv ℝ 4 (fun _ : Fin 2 → ℝ => (0 : ℝ)) 0
          ![coordDir 1, coordDir 1, coordDir 1, coordDir 1] := by
  have h := T4_compute_derivative_tensors (fun _ => (0 : ℝ)) contDiff_const
  exact ⟨contDiff_const, h.1, h.2.1 0 1, h.2.2.1 0 1 1, h.2.2.2 1 1 1 1⟩

end T4Expansion
